import Mathlib

/-!
Verification of the MP1 distributional-statistics pipeline: a shallow
embedding of `cooccurrence.py` (unigram / windowed co-occurrence counting)
and `ppmi.py` (table loading, PMI/PPMI calculation, evaluation driver).

Python strings are modelled by `String` (code-point lexicographic order, as
in Python), Python `int` by `Int`/`Nat`, Python `dict` by association lists
with insertion-order semantics, and Python exceptions by `Option`/sum-like
result types (`none` / `.err` marks a raised exception).  Python `float`
arithmetic inside the PMI calculator is modelled by exact rationals, with
`math.log2` kept symbolic (`PmiResult.log2 q` stands for the value
`log2 q`); an `EReal` interpretation is provided for the `-inf` sentinel
and the `max` in `ppmi`.
-/

namespace MP1

/-- The Python whitespace characters recognised by `str.split()` /
`str.rstrip()` (space, tab, newline, carriage return, vertical tab,
form feed). -/
def pyWs (c : Char) : Bool :=
  c = ' ' || c = '\t' || c = '\n' || c = '\x0d' || c = '\x0b' || c = '\x0c'

/-- Characters of a line after Python `line.rstrip()`: trailing whitespace
removed. -/
def rstripChars (l : List Char) : List Char :=
  (l.reverse.dropWhile pyWs).reverse

/-- Python `line.rstrip()`. -/
def pyRstrip (s : String) : String :=
  ⟨rstripChars s.data⟩

/-- Characters after Python `str.strip()` (used by `int(...)`, which ignores
surrounding whitespace): leading and trailing whitespace removed. -/
def stripChars (l : List Char) : List Char :=
  ((l.dropWhile pyWs).reverse.dropWhile pyWs).reverse

/-- Python `str.split()` with no separator: split on runs of whitespace,
discarding empty fields. -/
def pySplitWs (l : List Char) : List String :=
  let step := fun c (acc : List Char × List String) =>
    if pyWs c then ([], if acc.1 = [] then acc.2 else String.mk acc.1 :: acc.2)
    else (c :: acc.1, acc.2)
  let r := l.foldr step ([], [])
  if r.1 = [] then r.2 else String.mk r.1 :: r.2

/-- Python `s.split(sep, 1)` for a one-character separator, unpacked into a
2-tuple: `none` when the separator does not occur (the unpacking raises
`ValueError`), otherwise the parts before and after its first occurrence. -/
def splitOnce (sep : Char) : List Char → Option (List Char × List Char)
  | [] => none
  | c :: cs =>
    if c = sep then some ([], cs)
    else (splitOnce sep cs).map (fun p => (c :: p.1, p.2))

/-- The decimal digit character for `d < 10`. -/
def digitChar (d : Nat) : Char := Char.ofNat (48 + d)

/-- The value of a decimal digit character, `none` for non-digits. -/
def digitVal (c : Char) : Option Nat :=
  if '0' ≤ c ∧ c ≤ '9' then some (c.toNat - 48) else none

/-- Little-endian decimal digits of `n`, with explicit fuel (the fuel is
always sufficient when it exceeds `n`). -/
def natDigitsAux : Nat → Nat → List Char
  | 0, _ => []
  | fuel + 1, n =>
    if n < 10 then [digitChar n]
    else digitChar (n % 10) :: natDigitsAux fuel (n / 10)

/-- The decimal rendering of a natural number, as produced by Python's
`str`/f-string formatting of a non-negative `int`. -/
def natRepr (n : Nat) : List Char :=
  (natDigitsAux (n + 1) n).reverse

/-- String form of `natRepr`. -/
def natString (n : Nat) : String := ⟨natRepr n⟩

/-- Accumulating decimal parser: `none` as soon as a non-digit appears. -/
def parseDigitsCore : List Char → Nat → Option Nat
  | [], acc => some acc
  | c :: rest, acc =>
    match digitVal c with
    | none => none
    | some d => parseDigitsCore rest (10 * acc + d)

/-- Parse a non-empty all-digit string. -/
def parseDigits (l : List Char) : Option Nat :=
  match l with
  | [] => none
  | l => parseDigitsCore l 0

/-- Python `int(s)`: surrounding whitespace ignored, an optional single
`+`/`-` sign, then a non-empty run of decimal digits; `none` models the
`ValueError` raised on any other input.  (Underscore digit grouping,
accepted by CPython, is not modelled; no claim depends on it.) -/
def pyIntAux : List Char → Option Int
  | [] => none
  | c :: rest =>
    if c = '-' then (parseDigits rest).map (fun n => -(n : Int))
    else if c = '+' then (parseDigits rest).map (fun n => (n : Int))
    else (parseDigits (c :: rest)).map (fun n => (n : Int))

/-- Python `int(s)` (see `pyIntAux` for the sign/digit handling). -/
def pyInt (l : List Char) : Option Int :=
  pyIntAux (stripChars l)

/-- Python string comparison `s < t`: lexicographic on code points. -/
def charsLt : List Char → List Char → Bool
  | [], [] => false
  | [], _ :: _ => true
  | _ :: _, [] => false
  | a :: as, b :: bs => if a < b then true else if b < a then false else charsLt as bs

/-- Python `s < t` on strings. -/
def pyLt (s t : String) : Bool := charsLt s.data t.data

/-- Python `s <= t` on strings (for a total order, `s <= t` iff `not (t < s)`). -/
def pyLe (s t : String) : Bool := !(pyLt t s)

/-- `cooccurrence.py` line 27: `sentence = line.rstrip().split()`. -/
def tokenize (line : String) : List String :=
  pySplitWs (rstripChars line.data)

/-- `cooccurrence.py` lines 30-33: the context window around position `i`,
`sentence[max(i - ws, 0):i] + sentence[i + 1:i + ws]` (a Python slice
`l[a:b]` is `(l.drop a).take (b - a)`; `Nat` subtraction supplies the
`max(·, 0)` clamping). -/
def window (sentence : List String) (ws i : Nat) : List String :=
  (sentence.drop (i - ws)).take (i - (i - ws)) ++
    (sentence.drop (i + 1)).take (ws - 1)

/-- `cooccurrence.py` lines 28-39, inner loop for one sentence: for each
position `i` with target token `t` (`enumerate` modelled by indexing), every
context token `c` of the window with `not (t > c)` contributes the key
`(t, c)` to the co-occurrence counter.  The returned list carries one entry
per increment. -/
def sentenceKeys (ws : Nat) (s : List String) : List (String × String) :=
  (List.range s.length).flatMap (fun i =>
    let t := s.getD i ""
    (window s ws i).filterMap (fun c => if pyLt c t then none else some (t, c)))

/-- All co-occurrence increments of a corpus (one entry per increment). -/
def corpusKeys (ws : Nat) (corpus : List (List String)) : List (String × String) :=
  corpus.flatMap (sentenceKeys ws)

/-- All target-token occurrences of a corpus: `unigram_freqs` receives one
increment per token position (`cooccurrence.py` line 29). -/
def corpusTokens (corpus : List (List String)) : List String :=
  corpus.flatMap id

/-- Counter lookup: how many increments a key received. -/
def tally [DecidableEq α] (l : List α) (k : α) : Nat :=
  l.countP (fun x => x = k)

/-- `ppmi.py` lines 23-25, `_make_key`: `(w1, w2) if w1 < w2 else (w2, w1)`. -/
def make_key (w1 w2 : String) : String × String :=
  if pyLt w1 w2 then (w1, w2) else (w2, w1)

/-- Python `dict` assignment `table[k] = v`: replace in place when the key is
present, append otherwise (insertion order preserved). -/
def dictInsert [DecidableEq α] (table : List (α × β)) (k : α) (v : β) :
    List (α × β) :=
  if table.any (fun p => p.1 = k) then
    table.map (fun p => if p.1 = k then (k, v) else p)
  else table ++ [(k, v)]

/-- Python `dict.get(k, 0)` over an association list. -/
def lookupD [DecidableEq α] (table : List (α × Int)) (k : α) : Int :=
  (((table.find? (fun p => p.1 = k)).map (fun p => p.2)).getD 0)

/-- `ppmi.py` lines 32-34, one row of `_read_unigram`:
`(token, _freq) = line.rstrip().split("\t", 1); table[token] = int(_freq)`.
`none` models the `ValueError` raised on a tab-less row or a count that is
not an integer literal. -/
def readUnigramRow (line : String) : Option (String × Int) := do
  let (tok, f) ← splitOnce '\t' (rstripChars line.data)
  let n ← pyInt f
  return (String.mk tok, n)

/-- `ppmi.py` lines 28-35, `_read_unigram`: rows are loaded in order into a
`dict`; a failing row aborts the whole load. -/
def readUnigram (lines : List String) : Option (List (String × Int)) :=
  lines.foldlM (fun table l =>
    (readUnigramRow l).map (fun r => dictInsert table r.1 r.2)) []

/-- `ppmi.py` lines 42-47, one row of `_read_cooccur`: split off the count at
the tab, split the pair at the first space, canonicalize with `_make_key`,
parse the count. -/
def readCooccurRow (line : String) : Option ((String × String) × Int) := do
  let (pair, f) ← splitOnce '\t' (rstripChars line.data)
  let (w1, w2) ← splitOnce ' ' pair
  let key := make_key (String.mk w1) (String.mk w2)
  let n ← pyInt f
  return (key, n)

/-- `ppmi.py` lines 38-48, `_read_cooccur`. -/
def readCooccur (lines : List String) : Option (List ((String × String) × Int)) :=
  lines.foldlM (fun table l =>
    (readCooccurRow l).map (fun r => dictInsert table r.1 r.2)) []

/-- `cooccurrence.py` line 46: the line `f"{token}\t{freq}"` written for one
unigram entry. -/
def writeUnigramLine (t : String) (c : Nat) : String :=
  t ++ "\t" ++ natString c

/-- `cooccurrence.py` lines 44-46: the unigram file, one line per table entry
in the order emitted (`most_common()` order; the round-trip claims hold for
every emission order, so the entry sequence is a parameter). -/
def writeUnigram (entries : List (String × Nat)) : List String :=
  entries.map (fun e => writeUnigramLine e.1 e.2)

/-- `cooccurrence.py` line 52: the line `f"{target_token} {context_token}\t{freq}"`. -/
def writeCooccurLine (a b : String) (c : Nat) : String :=
  a ++ " " ++ b ++ "\t" ++ natString c

/-- `cooccurrence.py` lines 50-52: the co-occurrence file, one line per table
entry in iteration order. -/
def writeCooccur (entries : List ((String × String) × Nat)) : List String :=
  entries.map (fun e => writeCooccurLine e.1.1 e.1.2 e.2)

/-- `ppmi.py` lines 59-63, `PMICalculator.__init__`: the constructor stores
the two tables and computes the totals; it performs no validation and cannot
fail. -/
structure PMICalculator where
  unigram : List (String × Int)
  cooccur : List ((String × String) × Int)

/-- `unigram_n = sum(self.unigram.values())`. -/
def unigram_n (c : PMICalculator) : Int := (c.unigram.map (fun p => p.2)).sum

/-- `cooccur_n = sum(self.cooccur.values())`. -/
def cooccur_n (c : PMICalculator) : Int := (c.cooccur.map (fun p => p.2)).sum

/-- Python division `a / b` of two integers: a float, modelled exactly as a
rational; `none` models the `ZeroDivisionError` raised when `b == 0`. -/
def pydiv (a b : Int) : Option ℚ :=
  if b = 0 then none else some ((a : ℚ) / (b : ℚ))

/-- `ppmi.py` lines 65-66, `_unigram_p`: `self.unigram.get(w, 0) / self.unigram_n`. -/
def unigram_p (c : PMICalculator) (w : String) : Option ℚ :=
  pydiv (lookupD c.unigram w) (unigram_n c)

/-- `ppmi.py` lines 68-70, `_cooccur_p`:
`self.cooccur.get(_make_key(w1, w2), 0) / self.cooccur_n`. -/
def cooccur_p (c : PMICalculator) (w1 w2 : String) : Option ℚ :=
  pydiv (lookupD c.cooccur (make_key w1 w2)) (cooccur_n c)

/-- Result of `PMICalculator.pmi`: a raised exception (`err`), the sentinel
`float("-inf")` (`negInf`), or the float `math.log2 q` for the exactly
computed positive rational argument `q` (`log2 q`). -/
inductive PmiResult where
  | err : PmiResult
  | negInf : PmiResult
  | log2 : ℚ → PmiResult
deriving DecidableEq

/-- `ppmi.py` lines 75-81, `pmi`: compute `numerator = _cooccur_p(w1, w2)`
(raising if `cooccur_n` is zero); return `-inf` if it is falsy (zero);
compute `denominator = _unigram_p(w1) * _unigram_p(w2)` (raising if
`unigram_n` is zero); `math.log2(numerator / denominator)` raises
`ZeroDivisionError` when the denominator is zero and `ValueError` when the
quotient is not positive. -/
def pmi (c : PMICalculator) (w1 w2 : String) : PmiResult :=
  match cooccur_p c w1 w2 with
  | none => .err
  | some numerator =>
    if numerator = 0 then .negInf
    else
      match unigram_p c w1, unigram_p c w2 with
      | some p1, some p2 =>
        if p1 * p2 = 0 then .err
        else if 0 < numerator / (p1 * p2) then .log2 (numerator / (p1 * p2))
        else .err
      | _, _ => .err

/-- The float value of a `PmiResult` as an extended real (`none` for a raised
exception). -/
noncomputable def pmiVal (c : PMICalculator) (w1 w2 : String) : Option EReal :=
  match pmi c w1 w2 with
  | .err => none
  | .negInf => some ⊥
  | .log2 q => some ((Real.logb 2 (q : ℝ) : ℝ) : EReal)

/-- `ppmi.py` lines 83-85, `ppmi`: `max(self.pmi(w1, w2), 0.0)`; an exception
raised by `pmi` propagates. -/
noncomputable def ppmiVal (c : PMICalculator) (w1 w2 : String) : Option EReal :=
  (pmiVal c w1 w2).map (fun x => max x 0)

/-- Python `str.casefold`, modelled as character-wise lowercasing (`casefold`
agrees with this on ASCII tokens; the full Unicode table is out of scope). -/
def pyCasefold (s : String) : String := ⟨s.data.map Char.toLower⟩

/-- `ppmi.py` lines 94-97, evaluation driver, one judgment row: both tokens
are casefolded, then canonically ordered. -/
def driverPair (w1 w2 : String) : String × String :=
  make_key (pyCasefold w1) (pyCasefold w2)

/-- `ppmi.py` lines 90-99: the driver turns the judgment rows
`(w1, w2, score)` into the aligned lists of canonical pairs and human
scores, in input order. -/
def driverLists (rows : List (String × String × ℚ)) :
    List (String × String) × List ℚ :=
  (rows.map (fun r => driverPair r.1 r.2.1), rows.map (fun r => r.2.2))

/-- Modelled from the spec (§4.2 WindowExtractor), for comparison with the
code's `window`: all tokens at positions `[max(0, i - r), i)` and
`(i, min(len, i + r)]` — up to `r` tokens before and `r` tokens after the
center. -/
def specWindow (s : List String) (r i : Nat) : List String :=
  ((List.range' (i - r) (min i s.length - (i - r))).map (fun j => s.getD j "")) ++
    ((List.range' (i + 1) (min (i + r + 1) s.length - (i + 1))).map (fun j => s.getD j ""))

/-- Modelled from the spec (§3 CooccurTable, claim C2), for comparison with
the code's counting: the number of unordered position pairs `p < q` of one
sentence at distance at most `r` whose canonical token pair is `k`. -/
def specEventCount (s : List String) (r : Nat) (k : String × String) : Nat :=
  Finset.sum (Finset.range s.length) (fun p =>
    Finset.sum (Finset.range s.length) (fun q =>
      if p < q ∧ q - p ≤ r ∧ make_key (s.getD p "") (s.getD q "") = k then 1 else 0))

/-- The number of increments the code's inner loop at center `i` gives to
key `k` for context position `j` (`1` when `j` lies in the asymmetric window
of `i`, the target token at `i` is not greater than the context token at
`j`, and the recorded key is `k`). -/
def orderedContrib (s : List String) (ws i j : Nat) (k : String × String) : Nat :=
  if (i ≤ j + ws ∧ j < i + ws ∧ j ≠ i) ∧
      pyLt (s.getD j "") (s.getD i "") = false ∧ (s.getD i "", s.getD j "") = k
  then 1 else 0

/-- The exact number of increments the canonical key `k` receives from the
unordered position pair `p < q`: two when the tokens are equal strings at
distance below `ws`, one for distinct tokens at distance below `ws`, one at
distance exactly `ws` when the later token does not exceed the earlier one,
zero otherwise. -/
def eventContrib (s : List String) (ws p q : Nat) (k : String × String) : Nat :=
  if make_key (s.getD p "") (s.getD q "") = k then
    if q - p < ws then (if s.getD p "" = s.getD q "" then 2 else 1)
    else if q - p = ws ∧ pyLe (s.getD q "") (s.getD p "") then 1
    else 0
  else 0

/-- The spec's end-to-end example corpus: the lines `"the cat sat"` and
`"the dog sat"`. -/
def exampleCorpus : List (List String) :=
  [tokenize "the cat sat", tokenize "the dog sat"]

/-- The spec's expected tables for `exampleCorpus` with window parameter 2,
as a `PMICalculator`. -/
def exampleCalc : PMICalculator :=
  { unigram := [("the", 2), ("cat", 1), ("sat", 2), ("dog", 1)]
    cooccur := [(("cat", "sat"), 1), (("cat", "the"), 1), (("dog", "sat"), 1),
                (("dog", "the"), 1), (("sat", "the"), 2)] }

/-! ### Properties of the string order -/

theorem charsLt_irrefl (l : List Char) : charsLt l l = false := by
  induction l with
  | nil => rfl
  | cons a as ih => simp [charsLt, ih]

theorem charsLt_asymm {a b : List Char} (h : charsLt a b = true) :
    charsLt b a = false := by
  induction a generalizing b with
  | nil => cases b with
    | nil => simp [charsLt] at h
    | cons y ys => simp [charsLt]
  | cons x xs ih =>
    cases b with
    | nil => simp [charsLt] at h
    | cons y ys =>
      by_cases hxy : x < y
      · have : ¬ y < x := lt_asymm hxy
        simp [charsLt, hxy, this, lt_irrefl]
      · by_cases hyx : y < x
        · simp [charsLt, hxy, hyx] at h
        · have hne : x = y := le_antisymm (not_lt.mp hyx) (not_lt.mp hxy)
          subst hne
          simp [charsLt, lt_irrefl] at h ⊢
          exact ih h

theorem charsLt_eq {a b : List Char} (hab : charsLt a b = false)
    (hba : charsLt b a = false) : a = b := by
  induction a generalizing b with
  | nil => cases b with
    | nil => rfl
    | cons y ys => simp [charsLt] at hab
  | cons x xs ih =>
    cases b with
    | nil => simp [charsLt] at hba
    | cons y ys =>
      by_cases hxy : x < y
      · simp [charsLt, hxy] at hab
      · by_cases hyx : y < x
        · simp [charsLt, hyx] at hba
        · have hx : x = y := le_antisymm (not_lt.mp hyx) (not_lt.mp hxy)
          subst hx
          simp [charsLt, lt_irrefl] at hab hba
          exact congrArg (x :: ·) (ih hab hba)

theorem string_eq_of_data_eq {s t : String} (h : s.data = t.data) : s = t := by
  cases s; cases t; exact congrArg String.mk h

theorem pyLt_irrefl (s : String) : pyLt s s = false := charsLt_irrefl s.data

theorem pyLt_asymm {s t : String} (h : pyLt s t = true) : pyLt t s = false :=
  charsLt_asymm h

theorem pyLt_eq {s t : String} (hab : pyLt s t = false)
    (hba : pyLt t s = false) : s = t :=
  string_eq_of_data_eq (charsLt_eq hab hba)

theorem make_key_comm (a b : String) : make_key a b = make_key b a := by
  unfold make_key
  by_cases hab : pyLt a b = true
  · simp [hab, pyLt_asymm hab]
  · by_cases hba : pyLt b a = true
    · simp [hab, hba]
    · have := pyLt_eq (by simpa using hab) (by simpa using hba)
      subst this
      simp

theorem make_key_of_not_lt {a b : String} (h : pyLt b a = false) :
    make_key a b = (a, b) := by
  unfold make_key
  by_cases hab : pyLt a b = true
  · simp [hab]
  · have := pyLt_eq (by simpa using hab) h
    subst this
    simp [hab]

theorem make_key_fst_le (a b : String) :
    pyLe (make_key a b).1 (make_key a b).2 = true := by
  unfold make_key pyLe
  by_cases hab : pyLt a b = true
  · simp [hab, pyLt_asymm hab]
  · simp only [hab, if_false, Bool.not_eq_true']
    simpa using hab

/-! ### Evaluation of `pmi` -/

theorem lookupD_nonneg {α : Type} [DecidableEq α] {t : List (α × Int)}
    (h : ∀ p ∈ t, 0 ≤ p.2) (k : α) : 0 ≤ lookupD t k := by
  unfold lookupD
  cases hf : t.find? (fun p => p.1 = k) with
  | none => simp
  | some p => simpa using h p (List.mem_of_find?_eq_some hf)

theorem pmi_negInf_of_zero {c : PMICalculator} {w1 w2 : String}
    (hcn : cooccur_n c ≠ 0) (h0 : lookupD c.cooccur (make_key w1 w2) = 0) :
    pmi c w1 w2 = .negInf := by
  simp [pmi, cooccur_p, pydiv, hcn, h0]

theorem pmi_ne_negInf_of_ne_zero {c : PMICalculator} {w1 w2 : String}
    (hcn : cooccur_n c ≠ 0) (h0 : lookupD c.cooccur (make_key w1 w2) ≠ 0) :
    pmi c w1 w2 ≠ .negInf := by
  have hnum : ((lookupD c.cooccur (make_key w1 w2) : ℚ) / (cooccur_n c : ℚ)) ≠ 0 :=
    div_ne_zero (by exact_mod_cast h0) (by exact_mod_cast hcn)
  unfold pmi cooccur_p pydiv
  simp only [hcn, if_false, hnum]
  cases unigram_p c w1 with
  | none => simp
  | some p1 =>
    cases unigram_p c w2 with
    | none => simp
    | some p2 =>
      by_cases hz : p1 * p2 = 0
      · simp [hz, hnum]
      · simp only [hz, hnum, if_false]
        split <;> simp

theorem pmi_eq_log2_of_pos {c : PMICalculator} {w1 w2 : String}
    (hcn : 0 < cooccur_n c) (hun : 0 < unigram_n c)
    (hpc : 0 < lookupD c.cooccur (make_key w1 w2))
    (h1 : 0 < lookupD c.unigram w1) (h2 : 0 < lookupD c.unigram w2) :
    pmi c w1 w2 =
      .log2 (((lookupD c.cooccur (make_key w1 w2) : ℚ) / (cooccur_n c : ℚ)) /
        (((lookupD c.unigram w1 : ℚ) / (unigram_n c : ℚ)) *
          ((lookupD c.unigram w2 : ℚ) / (unigram_n c : ℚ)))) := by
  have hcnq : (0 : ℚ) < (cooccur_n c : ℚ) := by exact_mod_cast hcn
  have hunq : (0 : ℚ) < (unigram_n c : ℚ) := by exact_mod_cast hun
  have hnum : (0 : ℚ) < ((lookupD c.cooccur (make_key w1 w2) : ℚ) / (cooccur_n c : ℚ)) :=
    div_pos (by exact_mod_cast hpc) hcnq
  have hden : (0 : ℚ) < ((lookupD c.unigram w1 : ℚ) / (unigram_n c : ℚ)) *
      ((lookupD c.unigram w2 : ℚ) / (unigram_n c : ℚ)) :=
    mul_pos (div_pos (by exact_mod_cast h1) hunq) (div_pos (by exact_mod_cast h2) hunq)
  unfold pmi cooccur_p unigram_p pydiv
  simp [hcn.ne', hun.ne', hnum.ne', hden.ne', div_pos hnum hden]

theorem pmi_err_of_zero_unigram {c : PMICalculator} {w1 w2 : String}
    (hpc : 0 < lookupD c.cooccur (make_key w1 w2))
    (hz : lookupD c.unigram w1 = 0 ∨ lookupD c.unigram w2 = 0) :
    pmi c w1 w2 = .err := by
  unfold pmi cooccur_p unigram_p pydiv
  by_cases hcn : cooccur_n c = 0
  · simp [hcn]
  have hnum : ((lookupD c.cooccur (make_key w1 w2) : ℚ) / (cooccur_n c : ℚ)) ≠ 0 :=
    div_ne_zero (by exact_mod_cast hpc.ne') (by exact_mod_cast hcn)
  simp only [hcn, if_false, hnum]
  by_cases hun : unigram_n c = 0
  · simp [hun]
  rcases hz with h | h <;> simp [hun, h, hnum]

/-! ### C9: canonical pair keys -/

/-- C9: for all token strings `w1`, `w2`, `make_key` is symmetric, its first
component is lexicographically at most its second, and on ties it returns
`(w1, w1)`. -/
theorem C9_make_key_canonical (w1 w2 : String) :
    make_key w1 w2 = make_key w2 w1 ∧
    pyLe (make_key w1 w2).1 (make_key w1 w2).2 = true ∧
    (w1 = w2 → make_key w1 w2 = (w1, w1)) := by
  refine ⟨make_key_comm w1 w2, make_key_fst_le w1 w2, fun h => ?_⟩
  subst h
  simp [make_key, pyLt_irrefl]

/-- Witness for C9 at concrete tokens, the tie hypothesis discharged at
`"sat" = "sat"`. -/
theorem C9_witness :
    make_key "the" "cat" = make_key "cat" "the" ∧
    make_key "sat" "sat" = ("sat", "sat") :=
  ⟨(C9_make_key_canonical "the" "cat").1,
    (C9_make_key_canonical "sat" "sat").2.2 rfl⟩

/-! ### C7: the evaluation driver casefolds -/

/-- C7 is refuted: for the judgment row `("The", "cat")` the driver does not
score the canonical ordering of the raw strings — `ppmi.py` lines 94-95
casefold both tokens first, so the scored pair is `("cat", "the")` while the
canonical ordering of the raw strings is `("The", "cat")`. -/
theorem C7_refuted :
    driverPair "The" "cat" ≠ make_key "The" "cat" ∧
    driverPair "The" "cat" = ("cat", "the") := by
  constructor <;> decide

/-- C7 as amended: the driver casefolds each of the row's two tokens and then
scores the canonical ordering of the casefolded tokens (in input order); a
row whose tokens are already casefolded is scored as the canonical ordering
of its raw strings. -/
theorem C7_driver_casefolds (rows : List (String × String × ℚ)) (w1 w2 : String)
    (h1 : pyCasefold w1 = w1) (h2 : pyCasefold w2 = w2) :
    (driverLists rows).1 = rows.map (fun r => make_key (pyCasefold r.1) (pyCasefold r.2.1)) ∧
    (driverLists rows).2 = rows.map (fun r => r.2.2) ∧
    driverPair w1 w2 = make_key w1 w2 := by
  refine ⟨rfl, rfl, ?_⟩
  unfold driverPair
  rw [h1, h2]

/-- Witness for C7 at a concrete already-casefolded row. -/
theorem C7_witness :
    driverPair "cat" "dog" = make_key "cat" "dog" :=
  (C7_driver_casefolds [("cat", "dog", 5)] "cat" "dog"
    (by decide) (by decide)).2.2

/-! ### C4: no emptiness guard at construction -/

/-- C4 is refuted: `PMICalculator.__init__` (ppmi.py lines 59-63) performs no
validation, so construction from empty tables succeeds and there is no
`EmptyCorpus` failure; the probability operations then divide by the zero
total at query time (`none` models the raised `ZeroDivisionError`). -/
theorem C4_refuted :
    unigram_p { unigram := [], cooccur := [] } "a" = none ∧
    cooccur_p { unigram := [], cooccur := [] } "a" "b" = none := by
  constructor <;> decide

/-- C4 as amended: construction never fails; instead, whenever the unigram
(resp. co-occurrence) total is zero, every unigram (resp. co-occurrence)
probability query divides by zero and raises, and whenever the total is
nonzero the query returns a value. -/
theorem C4_division_at_query_time (u : List (String × Int))
    (co : List ((String × String) × Int)) (w w1 w2 : String) :
    (unigram_n { unigram := u, cooccur := co } = 0 →
      unigram_p { unigram := u, cooccur := co } w = none) ∧
    (cooccur_n { unigram := u, cooccur := co } = 0 →
      cooccur_p { unigram := u, cooccur := co } w1 w2 = none) ∧
    (unigram_n { unigram := u, cooccur := co } ≠ 0 →
      (unigram_p { unigram := u, cooccur := co } w).isSome) ∧
    (cooccur_n { unigram := u, cooccur := co } ≠ 0 →
      (cooccur_p { unigram := u, cooccur := co } w1 w2).isSome) := by
  refine ⟨fun h => ?_, fun h => ?_, fun h => ?_, fun h => ?_⟩ <;>
    simp [unigram_p, cooccur_p, pydiv, h]

/-- Witness for C4 at concrete tables: a zero unigram total raises on a
unigram query while the nonzero co-occurrence total answers. -/
theorem C4_witness :
    unigram_p { unigram := [], cooccur := [(("a", "b"), 2)] } "x" = none ∧
    (cooccur_p { unigram := [], cooccur := [(("a", "b"), 2)] } "a" "b").isSome := by
  constructor
  · exact (C4_division_at_query_time [] [(("a", "b"), 2)] "x" "a" "b").1 rfl
  · exact (C4_division_at_query_time [] [(("a", "b"), 2)] "x" "a" "b").2.2.2 (by decide)

/-! ### C3: the end-to-end example -/

/-- C3: on the two-sentence corpus `"the cat sat"`, `"the dog sat"` with
window parameter 2, the aggregator produces exactly the unigram counts
the=2, cat=1, sat=2, dog=1 (6 tokens in all) and exactly the co-occurrence
counts cat,sat=1; cat,the=1; dog,sat=1; dog,the=1; sat,the=2 (6 increments
in all), the derived totals are `unigram_n = 6` and `cooccur_n = 6`, and on
these tables `pmi("cat", "sat")` is `log2 3` (the symbolic `log2` of the
exactly-computed argument `(1/6) / ((1/6) * (2/6)) = 3`). -/
theorem C3_end_to_end :
    (∀ t, (tally (corpusTokens exampleCorpus) t : Int) = lookupD exampleCalc.unigram t) ∧
    (∀ k, (tally (corpusKeys 2 exampleCorpus) k : Int) = lookupD exampleCalc.cooccur k) ∧
    (corpusTokens exampleCorpus).length = 6 ∧
    (corpusKeys 2 exampleCorpus).length = 6 ∧
    unigram_n exampleCalc = 6 ∧
    cooccur_n exampleCalc = 6 ∧
    pmi exampleCalc "cat" "sat" = .log2 3 := by
  refine ⟨?_, ?_, by decide, by decide, by decide, by decide, ?_⟩
  · have e : corpusTokens exampleCorpus = ["the", "cat", "sat", "the", "dog", "sat"] := by
      decide
    intro t
    rw [e]
    by_cases k1 : t = "the"; · subst k1; decide
    by_cases k2 : t = "cat"; · subst k2; decide
    by_cases k3 : t = "sat"; · subst k3; decide
    by_cases k4 : t = "dog"; · subst k4; decide
    have n1 : ¬("the" = t) := fun h => k1 h.symm
    have n2 : ¬("cat" = t) := fun h => k2 h.symm
    have n3 : ¬("sat" = t) := fun h => k3 h.symm
    have n4 : ¬("dog" = t) := fun h => k4 h.symm
    simp [tally, List.countP_cons, lookupD, exampleCalc, List.find?, n1, n2, n3, n4]
  · have e : corpusKeys 2 exampleCorpus =
        [("cat", "the"), ("cat", "sat"), ("sat", "the"),
         ("dog", "the"), ("dog", "sat"), ("sat", "the")] := by decide
    intro k
    rw [e]
    by_cases k1 : k = ("cat", "the"); · subst k1; decide
    by_cases k2 : k = ("cat", "sat"); · subst k2; decide
    by_cases k3 : k = ("sat", "the"); · subst k3; decide
    by_cases k4 : k = ("dog", "the"); · subst k4; decide
    by_cases k5 : k = ("dog", "sat"); · subst k5; decide
    have n1 : ¬(("cat", "the") = k) := fun h => k1 h.symm
    have n2 : ¬(("cat", "sat") = k) := fun h => k2 h.symm
    have n3 : ¬(("sat", "the") = k) := fun h => k3 h.symm
    have n4 : ¬(("dog", "the") = k) := fun h => k4 h.symm
    have n5 : ¬(("dog", "sat") = k) := fun h => k5 h.symm
    simp [tally, List.countP_cons, lookupD, exampleCalc, List.find?, n1, n2, n3, n4, n5]
  · have h1 : make_key "cat" "sat" = ("cat", "sat") := by decide
    have d1 : decide ("the" = "cat") = false := by decide
    have d2 : decide ("the" = "sat") = false := by decide
    have d3 : decide ("cat" = "sat") = false := by decide
    simp only [pmi, cooccur_p, unigram_p, pydiv, lookupD, cooccur_n, unigram_n, exampleCalc,
      h1, List.find?, List.map, List.sum_cons, List.sum_nil, d1, d2, d3]
    norm_num

/-! ### C6: the value of `pmi` and `ppmi` -/

/-- C6 is refuted: the tables `unigram = {a: 0, b: 1}`,
`cooccur = {(a,b): 1}` have positive totals (both are 1) and every token of
the positively-counted pair `(a, b)` is present in the unigram table, yet
`pmi("a", "b")` raises `ZeroDivisionError` (`err`) instead of returning
`log2` of the probability ratio, because the present token `"a"` has unigram
count zero.  The remaining conjuncts check the claim's preconditions at this
input. -/
theorem C6_refuted :
    pmi { unigram := [("a", 0), ("b", 1)], cooccur := [(("a", "b"), 1)] } "a" "b" =
      .err ∧
    unigram_n { unigram := [("a", 0), ("b", 1)], cooccur := [(("a", "b"), 1)] } = 1 ∧
    cooccur_n { unigram := [("a", 0), ("b", 1)], cooccur := [(("a", "b"), 1)] } = 1 ∧
    (([("a", 0), ("b", 1)] : List (String × Int)).find? (fun p => p.1 = "a")).isSome ∧
    (([("a", 0), ("b", 1)] : List (String × Int)).find? (fun p => p.1 = "b")).isSome ∧
    lookupD [(("a", "b"), 1)] (make_key "a" "b") = 1 := by
  refine ⟨pmi_err_of_zero_unigram (by decide) (Or.inl (by decide)),
    by decide, by decide, by decide, by decide, by decide⟩

/-- C6 as amended: for a `PMICalculator` over tables of non-negative counts
with positive totals, and a query whose two tokens have positive unigram
counts whenever the canonical pair count is positive, `pmi` returns the
`-inf` sentinel exactly when the canonical pair count is zero and otherwise
the `log2` of the exactly-computed probability ratio; `ppmi` is `max(pmi, 0)`
(exceptions propagating). -/
theorem C6_pmi_ppmi_values (c : PMICalculator) (w1 w2 : String)
    (hu : ∀ p ∈ c.unigram, 0 ≤ p.2) (hc : ∀ p ∈ c.cooccur, 0 ≤ p.2)
    (hun : 0 < unigram_n c) (hcn : 0 < cooccur_n c)
    (hpres : 0 < lookupD c.cooccur (make_key w1 w2) →
      0 < lookupD c.unigram w1 ∧ 0 < lookupD c.unigram w2) :
    (pmi c w1 w2 = .negInf ↔ lookupD c.cooccur (make_key w1 w2) = 0) ∧
    (lookupD c.cooccur (make_key w1 w2) ≠ 0 →
      pmi c w1 w2 =
        .log2 (((lookupD c.cooccur (make_key w1 w2) : ℚ) / (cooccur_n c : ℚ)) /
          (((lookupD c.unigram w1 : ℚ) / (unigram_n c : ℚ)) *
            ((lookupD c.unigram w2 : ℚ) / (unigram_n c : ℚ))))) ∧
    ppmiVal c w1 w2 = (pmiVal c w1 w2).map (fun x => max x 0) := by
  refine ⟨⟨fun h => ?_, fun h => pmi_negInf_of_zero hcn.ne' h⟩, fun h0 => ?_, rfl⟩
  · by_contra h0
    exact pmi_ne_negInf_of_ne_zero hcn.ne' h0 h
  · have hpc : 0 < lookupD c.cooccur (make_key w1 w2) :=
      lt_of_le_of_ne (lookupD_nonneg hc _) (Ne.symm h0)
    obtain ⟨hp1, hp2⟩ := hpres hpc
    exact pmi_eq_log2_of_pos hcn hun hpc hp1 hp2

/-- Witness for C6 at the tables `unigram = {a: 1, b: 1}`,
`cooccur = {(a,b): 1}`. -/
theorem C6_witness :
    pmi { unigram := [("a", 1), ("b", 1)], cooccur := [(("a", "b"), 1)] } "a" "b" =
      .log2 (((1 : ℚ) / 1) / (((1 : ℚ) / 2) * ((1 : ℚ) / 2))) ∧
    pmi { unigram := [("a", 1), ("b", 1)], cooccur := [(("a", "b"), 1)] } "a" "x" =
      .negInf := by
  constructor
  · have h := (C6_pmi_ppmi_values
      { unigram := [("a", 1), ("b", 1)], cooccur := [(("a", "b"), 1)] } "a" "b"
      (by decide) (by decide) (by decide) (by decide)
      (fun _ => ⟨by decide, by decide⟩)).2.1 (by decide)
    rw [h]
    have p1 : pyLt "a" "b" = true := by decide
    have d1 : decide (("a" : String) = "b") = false := by decide
    have d2 : decide (("b" : String) = "b") = true := by decide
    have d3 : decide (("a" : String) = "a") = true := by decide
    have d4 : decide ((("a", "b") : String × String) = ("a", "b")) = true := by decide
    simp only [lookupD, unigram_n, cooccur_n, make_key, List.find?, List.map,
      List.sum_cons, List.sum_nil, d1, d2, d3, d4, p1, if_true]
    norm_num
  · exact (C6_pmi_ppmi_values
      { unigram := [("a", 1), ("b", 1)], cooccur := [(("a", "b"), 1)] } "a" "x"
      (by decide) (by decide) (by decide) (by decide)
      (fun hx => absurd hx (by decide))).1.mpr (by decide)

/-! ### C10: the division in `pmi` is unguarded -/

/-- C10: for inconsistent tables — a positive canonical pair count while a
queried token has zero or absent unigram count — `pmi` raises a
division-by-zero error (`err`); and under the precondition that both queried
tokens have positive unigram counts whenever their pair count is positive
(with non-negative counts and positive totals), `pmi` never raises. -/
theorem C10_pmi_division_unguarded (c : PMICalculator) (w1 w2 : String) :
    (0 < lookupD c.cooccur (make_key w1 w2) →
      lookupD c.unigram w1 = 0 ∨ lookupD c.unigram w2 = 0 →
      pmi c w1 w2 = .err) ∧
    ((∀ p ∈ c.cooccur, 0 ≤ p.2) → 0 < unigram_n c → 0 < cooccur_n c →
      (0 < lookupD c.cooccur (make_key w1 w2) →
        0 < lookupD c.unigram w1 ∧ 0 < lookupD c.unigram w2) →
      pmi c w1 w2 ≠ .err) := by
  constructor
  · exact fun hpc hz => pmi_err_of_zero_unigram hpc hz
  · intro hc hun hcn hpres
    by_cases h0 : lookupD c.cooccur (make_key w1 w2) = 0
    · rw [pmi_negInf_of_zero hcn.ne' h0]
      simp
    · have hpc : 0 < lookupD c.cooccur (make_key w1 w2) :=
        lt_of_le_of_ne (lookupD_nonneg hc _) (Ne.symm h0)
      obtain ⟨hp1, hp2⟩ := hpres hpc
      rw [pmi_eq_log2_of_pos hcn hun hpc hp1 hp2]
      simp

/-- Witness for C10: with `unigram = {b: 1}` (token `"a"` absent) and
`cooccur = {(a,b): 1}`, the query `pmi("a", "b")` raises. -/
theorem C10_witness :
    pmi { unigram := [("b", 1)], cooccur := [(("a", "b"), 1)] } "a" "b" = .err :=
  (C10_pmi_division_unguarded
    { unigram := [("b", 1)], cooccur := [(("a", "b"), 1)] } "a" "b").1
    (by decide) (Or.inl (by decide))

/-! ### Parsing, writing, and the table round trip (C5, C8) -/


theorem not_ws_chars : pyWs '-' = false ∧ pyWs '+' = false ∧ pyWs '\t' = true ∧ pyWs ' ' = true := by
  decide

theorem digitVal_digitChar {d : Nat} (h : d < 10) : digitVal (digitChar d) = some d := by
  interval_cases d <;> decide

theorem digitChar_not_ws {d : Nat} (h : d < 10) : pyWs (digitChar d) = false := by
  interval_cases d <;> decide

theorem digitChar_ne_minus {d : Nat} (h : d < 10) : digitChar d ≠ '-' := by
  interval_cases d <;> decide

theorem digitChar_ne_plus {d : Nat} (h : d < 10) : digitChar d ≠ '+' := by
  interval_cases d <;> decide

theorem natDigitsAux_spec : ∀ fuel n, n < fuel →
    natDigitsAux fuel n ≠ [] ∧ ∀ c ∈ natDigitsAux fuel n, ∃ d, d < 10 ∧ c = digitChar d := by
  intro fuel
  induction fuel with
  | zero => intro n h; omega
  | succ f ih =>
    intro n h
    by_cases h10 : n < 10
    · refine ⟨by simp [natDigitsAux, h10], ?_⟩
      intro c hc
      simp [natDigitsAux, h10] at hc
      exact ⟨n, h10, hc⟩
    · have hdiv : n / 10 < n := Nat.div_lt_self (by omega) (by omega)
      have hrec := ih (n / 10) (by omega)
      refine ⟨by simp [natDigitsAux, h10], ?_⟩
      intro c hc
      simp [natDigitsAux, h10] at hc
      rcases hc with hc | hc
      · exact ⟨n % 10, Nat.mod_lt _ (by omega), hc⟩
      · exact hrec.2 c hc

theorem parseDigitsCore_append : ∀ (l₁ l₂ : List Char) (acc : Nat),
    parseDigitsCore (l₁ ++ l₂) acc =
      match parseDigitsCore l₁ acc with
      | none => none
      | some m => parseDigitsCore l₂ m := by
  intro l₁
  induction l₁ with
  | nil => intro l₂ acc; rfl
  | cons c cs ih =>
    intro l₂ acc
    show parseDigitsCore (c :: (cs ++ l₂)) acc = _
    cases hd : digitVal c with
    | none => simp [parseDigitsCore, hd]
    | some d =>
      simp only [parseDigitsCore, hd]
      exact ih l₂ (10 * acc + d)

theorem parseDigitsCore_natDigits : ∀ fuel n acc, n < fuel →
    parseDigitsCore (natDigitsAux fuel n).reverse acc =
      some (acc * 10 ^ (natDigitsAux fuel n).length + n) := by
  intro fuel
  induction fuel with
  | zero => intro n acc h; omega
  | succ f ih =>
    intro n acc h
    by_cases h10 : n < 10
    · simp [natDigitsAux, h10, parseDigitsCore, digitVal_digitChar h10]
      omega
    · have hdiv : n / 10 < n := Nat.div_lt_self (by omega) (by omega)
      simp only [natDigitsAux, h10, if_false, List.reverse_cons]
      rw [parseDigitsCore_append, ih (n / 10) acc (by omega)]
      simp only [parseDigitsCore, digitVal_digitChar (Nat.mod_lt n (by omega))]
      have hlen : (natDigitsAux f (n / 10)).length + 1 =
          (digitChar (n % 10) :: natDigitsAux f (n / 10)).length := by simp
      congr 1
      have hpow : (10 : Nat) ^ ((natDigitsAux f (n / 10)).length + 1) =
          10 ^ (natDigitsAux f (n / 10)).length * 10 := pow_succ 10 _
      simp only [List.length_cons, hpow]
      have hmod := Nat.div_add_mod n 10
      generalize (10 : Nat) ^ (natDigitsAux f (n / 10)).length = K
      ring_nf
      omega

theorem parseDigits_natRepr (n : Nat) : parseDigits (natRepr n) = some n := by
  have hne : natRepr n ≠ [] := by
    unfold natRepr
    simpa using (natDigitsAux_spec (n + 1) n (by omega)).1
  have hval := parseDigitsCore_natDigits (n + 1) n 0 (by omega)
  obtain ⟨c, cs, hrep⟩ := List.exists_cons_of_ne_nil hne
  unfold parseDigits
  rw [hrep]
  show parseDigitsCore (c :: cs) 0 = some n
  rw [← hrep]
  show parseDigitsCore (natDigitsAux (n + 1) n).reverse 0 = some n
  rw [hval]
  simp

theorem dropWhile_eq_self_of_not_ws {l : List Char} (h : ∀ c ∈ l, pyWs c = false) :
    l.dropWhile pyWs = l := by
  cases l with
  | nil => rfl
  | cons c cs => simp [List.dropWhile_cons, h c (by simp)]

theorem stripChars_eq_self {l : List Char} (h : ∀ c ∈ l, pyWs c = false) :
    stripChars l = l := by
  unfold stripChars
  rw [dropWhile_eq_self_of_not_ws h, dropWhile_eq_self_of_not_ws (by simpa using h)]
  simp

theorem rstripChars_append {l₁ l₂ : List Char} (h : ∀ c ∈ l₂, pyWs c = false)
    (hne : l₂ ≠ []) : rstripChars (l₁ ++ l₂) = l₁ ++ l₂ := by
  unfold rstripChars
  rw [List.reverse_append]
  obtain ⟨c, rest, hrev⟩ : ∃ c rest, l₂.reverse = c :: rest :=
    List.exists_cons_of_ne_nil (by simpa using hne)
  have hc : pyWs c = false := by
    have : c ∈ l₂.reverse := by rw [hrev]; simp
    exact h c (by simpa using this)
  rw [hrev, List.cons_append, List.dropWhile_cons, hc]
  simp only [Bool.false_eq_true, if_false]
  rw [← List.cons_append, ← hrev, ← List.reverse_append, List.reverse_reverse]

theorem splitOnce_append {sep : Char} : ∀ {l₁ : List Char} (l₂ : List Char), sep ∉ l₁ →
    splitOnce sep (l₁ ++ sep :: l₂) = some (l₁, l₂) := by
  intro l₁
  induction l₁ with
  | nil => intro l₂ h; simp [splitOnce]
  | cons c cs ih =>
    intro l₂ h
    have hc : ¬(c = sep) := by
      intro e; exact h (by simp [e])
    show splitOnce sep (c :: (cs ++ sep :: l₂)) = _
    simp only [splitOnce, hc, if_false]
    rw [ih l₂ (fun hm => h (by simp [hm]))]
    rfl

theorem natRepr_not_ws : ∀ n, ∀ c ∈ natRepr n, pyWs c = false := by
  intro n c hc
  have : c ∈ natDigitsAux (n + 1) n := by
    unfold natRepr at hc
    simpa using hc
  obtain ⟨d, hd, rfl⟩ := (natDigitsAux_spec (n + 1) n (by omega)).2 c this
  exact digitChar_not_ws hd

theorem pyInt_natRepr (n : Nat) : pyInt (natRepr n) = some (n : Int) := by
  unfold pyInt
  rw [stripChars_eq_self (natRepr_not_ws n)]
  have hne : natRepr n ≠ [] := by
    unfold natRepr
    simpa using (natDigitsAux_spec (n + 1) n (by omega)).1
  obtain ⟨c, cs, hrep⟩ := List.exists_cons_of_ne_nil hne
  obtain ⟨d, hd, hcd⟩ : ∃ d, d < 10 ∧ c = digitChar d := by
    have : c ∈ natDigitsAux (n + 1) n := by
      have : c ∈ natRepr n := by rw [hrep]; simp
      unfold natRepr at this
      simpa using this
    exact (natDigitsAux_spec (n + 1) n (by omega)).2 c this
  have hm : ¬(c = '-') := by rw [hcd]; exact digitChar_ne_minus hd
  have hp : ¬(c = '+') := by rw [hcd]; exact digitChar_ne_plus hd
  rw [hrep]
  simp only [pyIntAux, hm, hp, if_false]
  rw [← hrep, parseDigits_natRepr]
  rfl

theorem pyInt_neg_natRepr (n : Nat) : pyInt ('-' :: natRepr n) = some (-(n : Int)) := by
  unfold pyInt
  have hall : ∀ c ∈ '-' :: natRepr n, pyWs c = false := by
    intro c hc
    rcases List.mem_cons.mp hc with rfl | hc
    · decide
    · exact natRepr_not_ws n c hc
  rw [stripChars_eq_self hall]
  simp only [pyIntAux, if_pos rfl]
  rw [parseDigits_natRepr]
  rfl


theorem mk_data (s : String) : String.mk s.data = s := by
  cases s; rfl

theorem writeUnigramLine_data (t : String) (n : Nat) :
    (writeUnigramLine t n).data = t.data ++ '\t' :: natRepr n := by
  unfold writeUnigramLine natString
  rw [String.data_append, String.data_append]
  show t.data ++ "\t".data ++ natRepr n = _
  have e : "\t".data = ['\t'] := rfl
  rw [e]
  simp

theorem writeCooccurLine_data (a b : String) (n : Nat) :
    (writeCooccurLine a b n).data = a.data ++ ' ' :: (b.data ++ '\t' :: natRepr n) := by
  unfold writeCooccurLine natString
  rw [String.data_append, String.data_append, String.data_append, String.data_append]
  simp

theorem readUnigramRow_write (t : String) (n : Nat)
    (h : ∀ c ∈ t.data, pyWs c = false) :
    readUnigramRow (writeUnigramLine t n) = some (t, (n : Int)) := by
  unfold readUnigramRow
  rw [writeUnigramLine_data]
  have hne : natRepr n ≠ [] := by
    unfold natRepr
    simpa using (natDigitsAux_spec (n + 1) n (by omega)).1
  have hr : rstripChars (t.data ++ '\t' :: natRepr n) = t.data ++ '\t' :: natRepr n := by
    have he : t.data ++ '\t' :: natRepr n = (t.data ++ ['\t']) ++ natRepr n := by simp
    rw [he, rstripChars_append (natRepr_not_ws n) hne]
  rw [hr]
  have htab : '\t' ∉ t.data := by
    intro hm
    have := h _ hm
    simp [pyWs] at this
  rw [splitOnce_append (natRepr n) htab]
  simp only [Option.bind_eq_bind, Option.some_bind]
  rw [pyInt_natRepr]
  simp [mk_data]


theorem readUnigramRow_neg (t : String) (n : Nat)
    (h : ∀ c ∈ t.data, pyWs c = false) :
    readUnigramRow (t ++ "\t" ++ "-" ++ natString n) = some (t, -(n : Int)) := by
  unfold readUnigramRow
  have hdata : (t ++ "\t" ++ "-" ++ natString n).data =
      t.data ++ '\t' :: ('-' :: natRepr n) := by
    unfold natString
    rw [String.data_append, String.data_append, String.data_append]
    have e1 : "\t".data = ['\t'] := rfl
    have e2 : "-".data = ['-'] := rfl
    rw [e1, e2]
    simp
  rw [hdata]
  have hne : natRepr n ≠ [] := by
    unfold natRepr
    simpa using (natDigitsAux_spec (n + 1) n (by omega)).1
  have hr : rstripChars (t.data ++ '\t' :: ('-' :: natRepr n)) =
      t.data ++ '\t' :: ('-' :: natRepr n) := by
    have he : t.data ++ '\t' :: ('-' :: natRepr n) =
        (t.data ++ ['\t', '-']) ++ natRepr n := by simp
    rw [he, rstripChars_append (natRepr_not_ws n) hne]
  rw [hr]
  have htab : '\t' ∉ t.data := by
    intro hm
    have := h _ hm
    simp [pyWs] at this
  rw [splitOnce_append ('-' :: natRepr n) htab]
  simp only [Option.bind_eq_bind, Option.some_bind]
  rw [pyInt_neg_natRepr]
  simp [mk_data]

theorem readCooccurRow_write (a b : String) (n : Nat)
    (ha : ∀ c ∈ a.data, pyWs c = false) (hb : ∀ c ∈ b.data, pyWs c = false)
    (hcanon : pyLt b a = false) :
    readCooccurRow (writeCooccurLine a b n) = some ((a, b), (n : Int)) := by
  unfold readCooccurRow
  rw [writeCooccurLine_data]
  have hne : natRepr n ≠ [] := by
    unfold natRepr
    simpa using (natDigitsAux_spec (n + 1) n (by omega)).1
  have hr : rstripChars (a.data ++ ' ' :: (b.data ++ '\t' :: natRepr n)) =
      a.data ++ ' ' :: (b.data ++ '\t' :: natRepr n) := by
    have he : a.data ++ ' ' :: (b.data ++ '\t' :: natRepr n) =
        ((a.data ++ ' ' :: b.data) ++ ['\t']) ++ natRepr n := by simp
    rw [he, rstripChars_append (natRepr_not_ws n) hne]
  rw [hr]
  have htab : '\t' ∉ a.data ++ ' ' :: b.data := by
    intro hm
    rcases List.mem_append.mp hm with hm | hm
    · have := ha _ hm
      simp [pyWs] at this
    · rcases List.mem_cons.mp hm with hm | hm
      · exact absurd hm.symm (by decide)
      · have := hb _ hm
        simp [pyWs] at this
  have he2 : a.data ++ ' ' :: (b.data ++ '\t' :: natRepr n) =
      (a.data ++ ' ' :: b.data) ++ '\t' :: natRepr n := by simp
  rw [he2, splitOnce_append (natRepr n) htab]
  simp only [Option.bind_eq_bind, Option.some_bind]
  have hsp : ' ' ∉ a.data := by
    intro hm
    have := ha _ hm
    simp [pyWs] at this
  rw [splitOnce_append b.data hsp]
  simp only [Option.some_bind]
  rw [pyInt_natRepr]
  simp only [Option.some_bind, mk_data]
  rw [make_key_of_not_lt hcanon]
  rfl

theorem dictInsert_append {α β : Type} [DecidableEq α] {table : List (α × β)}
    {k : α} {v : β} (h : ∀ p ∈ table, p.1 ≠ k) :
    dictInsert table k v = table ++ [(k, v)] := by
  unfold dictInsert
  have hfalse : (table.any fun p => decide (p.1 = k)) = false := by
    simp only [List.any_eq_false, decide_eq_true_eq]
    exact h
  simp [hfalse]


theorem foldlM_dictInsert {κ : Type} [DecidableEq κ] (parse : String → Option (κ × Int)) :
    ∀ (les : List (String × (κ × Int))) (acc : List (κ × Int)),
      (∀ le ∈ les, parse le.1 = some le.2) →
      ((acc ++ les.map (fun le => le.2)).map (fun p => p.1)).Nodup →
      List.foldlM (fun table l => (parse l).map (fun r => dictInsert table r.1 r.2))
        acc (les.map (fun le => le.1)) = some (acc ++ les.map (fun le => le.2)) := by
  intro les
  induction les with
  | nil => intro acc hp hnd; simp
  | cons le rest ih =>
    intro acc hp hnd
    simp only [List.map_cons, List.foldlM_cons]
    rw [hp le (List.mem_cons_self le rest)]
    have hnotin : ∀ p ∈ acc, p.1 ≠ le.2.1 := by
      rw [List.map_append] at hnd
      have hd := (List.nodup_append.mp hnd).2.2
      intro p hp2 he
      exact hd (List.mem_map_of_mem _ hp2) (by simp [he])
    simp only [Option.map_some', Option.some_bind]
    rw [dictInsert_append hnotin]
    have hassoc : acc ++ [le.2] ++ rest.map (fun le => le.2) =
        acc ++ le.2 :: rest.map (fun le => le.2) := by simp
    rw [← hassoc]
    exact ih (acc ++ [le.2]) (fun le2 h2 => hp le2 (List.mem_cons_of_mem _ h2))
      (by simpa [hassoc] using hnd)

theorem foldlM_isSome {κ : Type} [DecidableEq κ] (parse : String → Option (κ × Int)) :
    ∀ (lines : List String) (acc : List (κ × Int)),
      (List.foldlM (fun table l => (parse l).map (fun r => dictInsert table r.1 r.2))
        acc lines).isSome ↔ ∀ l ∈ lines, (parse l).isSome := by
  intro lines
  induction lines with
  | nil => intro acc; simp
  | cons x xs ih =>
    intro acc
    cases hx : parse x with
    | none => simp [List.foldlM_cons, hx]
    | some r => simp [List.foldlM_cons, hx, ih]


/-- C5 is refuted: a unigram row `"a\t-3"` and a co-occurrence row
`"a b\t-2"` carry negative integer counts, which the claim says must be
rejected; `int()` accepts them (`ppmi.py` lines 34 and 46) and the loads
succeed, storing the negative counts. -/
theorem C5_refuted :
    readUnigram ["a\t-3"] = some [("a", -3)] ∧
    readCooccur ["a b\t-2"] = some [(("a", "b"), -2)] := by
  constructor <;> decide

/-- C5 as amended: a load succeeds exactly when every row parses (a row with
no tab-separated count field, a pair field without a space, or a count that
is not an integer literal raises and aborts the whole load — no row is
skipped), but a row carrying a negative integer count is accepted as-is
rather than rejected. -/
theorem C5_loader_aborts (lines : List String) (t : String) (n : Nat)
    (ht : ∀ c ∈ t.data, pyWs c = false) :
    ((readUnigram lines).isSome ↔ ∀ l ∈ lines, (readUnigramRow l).isSome) ∧
    ((readCooccur lines).isSome ↔ ∀ l ∈ lines, (readCooccurRow l).isSome) ∧
    readUnigramRow (t ++ "\t" ++ "-" ++ natString n) = some (t, -(n : Int)) :=
  ⟨foldlM_isSome readUnigramRow lines [], foldlM_isSome readCooccurRow lines [],
    readUnigramRow_neg t n ht⟩

/-- Witness for C5 at the concrete row `"cat\t-7"`. -/
theorem C5_witness :
    readUnigramRow ("cat" ++ "\t" ++ "-" ++ natString 7) = some ("cat", -(7 : Int)) :=
  (C5_loader_aborts [] "cat" 7 (by decide)).2.2

/-- C8: writing any unigram table and any canonically-keyed co-occurrence
table whose tokens are non-empty and whitespace-free (as every
aggregator-produced table is, tokens coming from `str.split()`), then
loading the files back, reproduces exactly the original tables: the same
entries with the same counts, in order. -/
theorem C8_round_trip
    (uentries : List (String × Nat)) (centries : List ((String × String) × Nat))
    (hu_wf : ∀ e ∈ uentries, e.1 ≠ "" ∧ ∀ c ∈ e.1.data, pyWs c = false)
    (hu_nd : (uentries.map (fun e => e.1)).Nodup)
    (hc_wf : ∀ e ∈ centries, (e.1.1 ≠ "" ∧ ∀ c ∈ e.1.1.data, pyWs c = false) ∧
      (e.1.2 ≠ "" ∧ ∀ c ∈ e.1.2.data, pyWs c = false) ∧ pyLt e.1.2 e.1.1 = false)
    (hc_nd : (centries.map (fun e => e.1)).Nodup) :
    readUnigram (writeUnigram uentries) =
      some (uentries.map (fun e => (e.1, (e.2 : Int)))) ∧
    readCooccur (writeCooccur centries) =
      some (centries.map (fun e => (e.1, (e.2 : Int)))) := by
  constructor
  · have h := foldlM_dictInsert readUnigramRow
      (uentries.map (fun e => (writeUnigramLine e.1 e.2, (e.1, (e.2 : Int))))) []
      (by
        intro le hle
        obtain ⟨e, he, rfl⟩ := List.mem_map.mp hle
        exact readUnigramRow_write e.1 e.2 (hu_wf e he).2)
      (by
        simp only [List.nil_append, List.map_map]
        simpa using hu_nd)
    simpa [writeUnigram, readUnigram, List.map_map, Function.comp] using h
  · have h := foldlM_dictInsert readCooccurRow
      (centries.map (fun e => (writeCooccurLine e.1.1 e.1.2 e.2, (e.1, (e.2 : Int))))) []
      (by
        intro le hle
        obtain ⟨e, he, rfl⟩ := List.mem_map.mp hle
        exact readCooccurRow_write e.1.1 e.1.2 e.2 ((hc_wf e he).1).2
          ((hc_wf e he).2.1).2 ((hc_wf e he).2.2)
      )
      (by
        simp only [List.nil_append, List.map_map]
        simpa using hc_nd)
    simpa [writeCooccur, readCooccur, List.map_map, Function.comp] using h

/-- Witness for C8 at concrete two-entry and one-entry tables. -/
theorem C8_witness :
    readUnigram (writeUnigram [("the", 2), ("cat", 1)]) =
      some [("the", (2 : Int)), ("cat", (1 : Int))] ∧
    readCooccur (writeCooccur [(("cat", "the"), 1)]) =
      some [(("cat", "the"), (1 : Int))] := by
  have h := C8_round_trip [("the", 2), ("cat", 1)] [(("cat", "the"), 1)]
    (by decide) (by decide) (by decide) (by decide)
  exact h

/-! ### Window shape and event counting (C1, C2) -/


theorem slice_eq_map_idx {α : Type} (d : α) (s : List α) (a b : Nat) :
    (s.drop a).take b = (List.range' a (min (a + b) s.length - a)).map (fun j => s.getD j d) := by
  apply List.ext_getElem
  · simp only [List.length_take, List.length_drop, List.length_map, List.length_range']
    omega
  · intro k h1 h2
    have hk : a + k < s.length := by
      simp only [List.length_map, List.length_range'] at h2
      omega
    simp only [List.getElem_take, List.getElem_drop, List.getElem_map, List.getElem_range',
      one_mul]
    rw [List.getD_eq_getElem s d hk]


theorem window_eq_map_idx (s : List String) (ws i : Nat) :
    window s ws i =
      (List.range' (i - ws) (min i s.length - (i - ws))).map (fun j => s.getD j "") ++
      (List.range' (i + 1) (min (i + ws) s.length - (i + 1))).map (fun j => s.getD j "") := by
  unfold window
  rw [slice_eq_map_idx "" s (i - ws) (i - (i - ws)),
    slice_eq_map_idx "" s (i + 1) (ws - 1)]
  have e1 : (i - ws) + (i - (i - ws)) = i := by omega
  have e2 : min (i + 1 + (ws - 1)) s.length - (i + 1) =
      min (i + ws) s.length - (i + 1) := by omega
  rw [e1, e2]

theorem countP_range_interval (p : Nat → Bool) :
    ∀ (m a : Nat), (List.range' a m).countP p =
      ∑ j in Finset.Ico a (a + m), (if p j then 1 else 0) := by
  intro m
  induction m with
  | zero => intro a; simp
  | succ m ih =>
    intro a
    rw [List.range'_concat, List.countP_append]
    rw [show a + (m + 1) = (a + m) + 1 by omega, Finset.sum_Ico_succ_top (by omega)]
    rw [ih a]
    simp [List.countP_cons]

theorem list_sum_map_range {M : Type} [AddCommMonoid M] (f : Nat → M) :
    ∀ n, ((List.range n).map f).sum = ∑ i in Finset.range n, f i := by
  intro n
  induction n with
  | zero => simp
  | succ n ih => rw [List.range_succ, Finset.sum_range_succ, List.map_append, List.sum_append, ih]; simp

theorem tally_flatMap {α β : Type} [DecidableEq β] (f : α → List β) (k : β) :
    ∀ l : List α, tally (l.flatMap f) k = (l.map (fun x => tally (f x) k)).sum := by
  intro l
  induction l with
  | nil => rfl
  | cons x xs ih =>
    simp only [List.flatMap_cons, List.map_cons, List.sum_cons, ← ih]
    unfold tally
    rw [List.countP_append]


theorem tally_filterMap_window (t : String) (k : String × String) :
    ∀ l : List String,
      tally (l.filterMap (fun c => if pyLt c t then none else some (t, c))) k
        = l.countP (fun c => decide (pyLt c t = false ∧ (t, c) = k)) := by
  intro l
  induction l with
  | nil => rfl
  | cons c cs ih =>
    by_cases hc : pyLt c t = true
    · have : pyLt c t = false → False := by simp [hc]
      simp [List.filterMap_cons, hc, tally, List.countP_cons] at ih ⊢
      simpa [this] using ih
    · have hc' : pyLt c t = false := by simpa using hc
      simp [List.filterMap_cons, hc', tally, List.countP_cons] at ih ⊢
      rw [ih]

theorem center_count (s : List String) (ws : Nat) (k : String × String) (i : Nat) :
    tally ((window s ws i).filterMap
        (fun c => if pyLt c (s.getD i "") then none else some (s.getD i "", c))) k
      = ∑ j in Finset.range s.length, orderedContrib s ws i j k := by
  rw [tally_filterMap_window, window_eq_map_idx]
  rw [List.countP_append, List.countP_map, List.countP_map]
  simp only [countP_range_interval]
  have horc : ∀ j, orderedContrib s ws i j k =
      if (i ≤ j + ws ∧ j < i + ws ∧ j ≠ i) then
        (if pyLt (s.getD j "") (s.getD i "") = false ∧ (s.getD i "", s.getD j "") = k
          then 1 else 0) else 0 := by
    intro j
    unfold orderedContrib
    by_cases hA : i ≤ j + ws ∧ j < i + ws ∧ j ≠ i
    · by_cases hB : pyLt (s.getD j "") (s.getD i "") = false ∧ (s.getD i "", s.getD j "") = k
      · simp [hA, hB]
      · simp [hA, hB]
    · simp [hA]
  have hdisj : Disjoint
      (Finset.Ico (i - ws) ((i - ws) + (min i s.length - (i - ws))))
      (Finset.Ico (i + 1) ((i + 1) + (min (i + ws) s.length - (i + 1)))) := by
    rw [Finset.disjoint_left]
    intro j h1 h2
    simp only [Finset.mem_Ico] at h1 h2
    omega
  have hpart : (Finset.range s.length).filter (fun j => i ≤ j + ws ∧ j < i + ws ∧ j ≠ i)
      = Finset.Ico (i - ws) ((i - ws) + (min i s.length - (i - ws)))
        ∪ Finset.Ico (i + 1) ((i + 1) + (min (i + ws) s.length - (i + 1))) := by
    ext j
    simp only [Finset.mem_filter, Finset.mem_range, Finset.mem_Ico, Finset.mem_union]
    omega
  have hrhs : ∑ j in Finset.range s.length, orderedContrib s ws i j k
      = (∑ j in Finset.Ico (i - ws) ((i - ws) + (min i s.length - (i - ws))),
          if pyLt (s.getD j "") (s.getD i "") = false ∧ (s.getD i "", s.getD j "") = k
            then 1 else 0)
        + (∑ j in Finset.Ico (i + 1) ((i + 1) + (min (i + ws) s.length - (i + 1))),
          if pyLt (s.getD j "") (s.getD i "") = false ∧ (s.getD i "", s.getD j "") = k
            then 1 else 0) := by
    rw [Finset.sum_congr rfl (fun j _ => horc j), ← Finset.sum_filter, hpart,
      Finset.sum_union hdisj]
  rw [hrhs]
  apply congrArg₂ (· + ·) <;>
    · apply Finset.sum_congr rfl
      intro j _
      simp [Function.comp]


theorem sentence_tally (ws : Nat) (s : List String) (k : String × String) :
    tally (sentenceKeys ws s) k =
      ∑ i in Finset.range s.length, ∑ j in Finset.range s.length,
        orderedContrib s ws i j k := by
  unfold sentenceKeys
  rw [tally_flatMap, list_sum_map_range]
  exact Finset.sum_congr rfl (fun i _ => center_count s ws k i)

theorem double_sum_swap (n : Nat) (F : Nat → Nat → Nat) (hdiag : ∀ i, F i i = 0) :
    ∑ i in Finset.range n, ∑ j in Finset.range n, F i j =
      ∑ p in Finset.range n, ∑ q in Finset.range n,
        (if p < q then F p q + F q p else 0) := by
  rw [← Finset.sum_product' (f := fun i j => F i j),
    ← Finset.sum_product' (f := fun p q => if p < q then F p q + F q p else 0)]
  rw [← Finset.sum_filter_add_sum_filter_not
    (Finset.range n ×ˢ Finset.range n) (fun x => x.1 < x.2) (fun x => F x.1 x.2)]
  have hdrop : ∑ x in (Finset.range n ×ˢ Finset.range n).filter (fun x => ¬ x.1 < x.2),
      F x.1 x.2 =
      ∑ x in (Finset.range n ×ˢ Finset.range n).filter (fun x => x.2 < x.1), F x.1 x.2 := by
    rw [← Finset.sum_filter_add_sum_filter_not
      ((Finset.range n ×ˢ Finset.range n).filter (fun x => ¬ x.1 < x.2))
      (fun x => x.2 < x.1) (fun x => F x.1 x.2)]
    have h1 : ((Finset.range n ×ˢ Finset.range n).filter (fun x => ¬ x.1 < x.2)).filter
        (fun x => x.2 < x.1) =
        (Finset.range n ×ˢ Finset.range n).filter (fun x => x.2 < x.1) := by
      rw [Finset.filter_filter]
      apply Finset.filter_congr
      intro x _
      constructor
      · exact fun h => h.2
      · exact fun h => ⟨by omega, h⟩
    have h2 : ∑ x in (((Finset.range n ×ˢ Finset.range n).filter (fun x => ¬ x.1 < x.2)).filter
        (fun x => ¬ x.2 < x.1)), F x.1 x.2 = 0 := by
      apply Finset.sum_eq_zero
      intro x hx
      simp only [Finset.mem_filter] at hx
      have : x.1 = x.2 := by omega
      rw [this]
      exact hdiag x.2
    rw [h1, h2, add_zero]
  rw [hdrop]
  have hmap : (Finset.range n ×ˢ Finset.range n).filter (fun x => x.2 < x.1) =
      ((Finset.range n ×ˢ Finset.range n).filter (fun x => x.1 < x.2)).map
        ⟨Prod.swap, Prod.swap_injective⟩ := by
    ext x
    simp only [Finset.mem_map, Finset.mem_filter, Finset.mem_product, Finset.mem_range,
      Function.Embedding.coeFn_mk]
    constructor
    · intro h
      exact ⟨x.swap, ⟨⟨h.1.2, h.1.1⟩, h.2⟩, by simp⟩
    · intro h
      obtain ⟨y, ⟨⟨hy1, hy2⟩, hy3⟩, hyx⟩ := h
      subst hyx
      exact ⟨⟨hy2, hy1⟩, hy3⟩
  rw [hmap, Finset.sum_map]
  have hrhs : ∑ x in Finset.range n ×ˢ Finset.range n,
      (if x.1 < x.2 then F x.1 x.2 + F x.2 x.1 else 0) =
      ∑ x in (Finset.range n ×ˢ Finset.range n).filter (fun x => x.1 < x.2),
        (F x.1 x.2 + F x.2 x.1) := by
    rw [Finset.sum_filter]
  rw [hrhs, Finset.sum_add_distrib]
  simp [Prod.swap]


theorem ordered_pair_contrib (s : List String) (ws p q : Nat) (k : String × String)
    (hpq : p < q) :
    orderedContrib s ws p q k + orderedContrib s ws q p k = eventContrib s ws p q k := by
  unfold orderedContrib eventContrib
  by_cases hab : pyLt (s.getD p "") (s.getD q "") = true
  · have hba : pyLt (s.getD q "") (s.getD p "") = false := pyLt_asymm hab
    have hne : ¬(s.getD p "" = s.getD q "") := by
      intro h
      rw [h] at hab
      rw [pyLt_irrefl] at hab
      cases hab
    have hmk : make_key (s.getD p "") (s.getD q "") = (s.getD p "", s.getD q "") := by
      unfold make_key
      rw [if_pos hab]
    have hle : pyLe (s.getD q "") (s.getD p "") = false := by
      unfold pyLe
      rw [hab]
      rfl
    have hoc2 : ¬((q ≤ p + ws ∧ p < q + ws ∧ p ≠ q) ∧
        pyLt (s.getD p "") (s.getD q "") = false ∧ (s.getD q "", s.getD p "") = k) := by
      rintro ⟨-, h2, -⟩
      rw [hab] at h2
      cases h2
    rw [hmk, if_neg hoc2]
    by_cases hk : (s.getD p "", s.getD q "") = k
    · by_cases hd : q - p < ws
      · rw [if_pos ⟨⟨by omega, by omega, by omega⟩, hba, hk⟩, if_pos hk, if_pos hd,
          if_neg hne]
      · rw [if_neg (by rintro ⟨⟨-, h, -⟩, -, -⟩; omega), if_pos hk, if_neg hd,
          if_neg (by rintro ⟨-, h⟩; rw [hle] at h; cases h)]
    · rw [if_neg (by rintro ⟨-, -, h⟩; exact hk h), if_neg hk]
  · have hab' : pyLt (s.getD p "") (s.getD q "") = false := by simpa using hab
    by_cases hba : pyLt (s.getD q "") (s.getD p "") = true
    · have hne : ¬(s.getD p "" = s.getD q "") := by
        intro h
        rw [h] at hba
        rw [pyLt_irrefl] at hba
        cases hba
      have hmk : make_key (s.getD p "") (s.getD q "") = (s.getD q "", s.getD p "") := by
        unfold make_key
        rw [if_neg (by rw [hab']; decide)]
      have hle : pyLe (s.getD q "") (s.getD p "") = true := by
        unfold pyLe
        rw [hab']
        rfl
      have hoc1 : ¬((p ≤ q + ws ∧ q < p + ws ∧ q ≠ p) ∧
          pyLt (s.getD q "") (s.getD p "") = false ∧ (s.getD p "", s.getD q "") = k) := by
        rintro ⟨-, h2, -⟩
        rw [hba] at h2
        cases h2
      rw [hmk, if_neg hoc1]
      by_cases hk : (s.getD q "", s.getD p "") = k
      · by_cases hd : q ≤ p + ws
        · rw [if_pos ⟨⟨by omega, by omega, by omega⟩, hab', hk⟩, if_pos hk]
          by_cases hd2 : q - p < ws
          · rw [if_pos hd2, if_neg hne]
          · rw [if_neg hd2, if_pos ⟨by omega, hle⟩]
        · rw [if_neg (by rintro ⟨⟨h, -, -⟩, -, -⟩; omega), if_pos hk,
            if_neg (by omega), if_neg (by rintro ⟨h, -⟩; omega)]
      · rw [if_neg (by rintro ⟨-, -, h⟩; exact hk h), if_neg hk]
    · have hba' : pyLt (s.getD q "") (s.getD p "") = false := by simpa using hba
      have heq : s.getD p "" = s.getD q "" := pyLt_eq hab' hba'
      have hmk : make_key (s.getD p "") (s.getD q "") = (s.getD p "", s.getD q "") := by
        unfold make_key
        rw [← heq, if_neg (by rw [pyLt_irrefl]; decide)]
      have hle : pyLe (s.getD q "") (s.getD p "") = true := by
        unfold pyLe
        rw [hab']
        rfl
      rw [hmk]
      by_cases hk : (s.getD p "", s.getD q "") = k
      · have hk2 : (s.getD q "", s.getD p "") = k := by
          rw [← heq] at hk ⊢
          exact hk
        by_cases hd : q - p < ws
        · rw [if_pos ⟨⟨by omega, by omega, by omega⟩, hba', hk⟩,
            if_pos ⟨⟨by omega, by omega, by omega⟩, hab', hk2⟩,
            if_pos hk, if_pos hd, if_pos heq]
        · by_cases hd2 : q - p = ws
          · rw [if_neg (by rintro ⟨⟨-, h, -⟩, -, -⟩; omega),
              if_pos ⟨⟨by omega, by omega, by omega⟩, hab', hk2⟩,
              if_pos hk, if_neg hd, if_pos ⟨hd2, hle⟩]
          · rw [if_neg (by rintro ⟨⟨-, h, -⟩, -, -⟩; omega),
              if_neg (by rintro ⟨⟨h, -, -⟩, -, -⟩; omega),
              if_pos hk, if_neg hd, if_neg (by rintro ⟨h, -⟩; omega)]
      · have hk2 : ¬((s.getD q "", s.getD p "") = k) := by
          rw [← heq] at hk ⊢
          exact hk
        rw [if_neg (by rintro ⟨-, -, h⟩; exact hk h),
          if_neg (by rintro ⟨-, -, h⟩; exact hk2 h), if_neg hk]


theorem window_filter_eq_union (len ws i : Nat) :
    (Finset.range len).filter (fun j => j ≠ i ∧ i ≤ j + ws ∧ j < i + ws)
      = Finset.Ico (i - ws) ((i - ws) + (min i len - (i - ws)))
        ∪ Finset.Ico (i + 1) ((i + 1) + (min (i + ws) len - (i + 1))) := by
  ext j
  simp only [Finset.mem_filter, Finset.mem_range, Finset.mem_Ico, Finset.mem_union]
  omega

theorem window_Ico_disjoint (len ws i : Nat) :
    Disjoint (Finset.Ico (i - ws) ((i - ws) + (min i len - (i - ws))))
      (Finset.Ico (i + 1) ((i + 1) + (min (i + ws) len - (i + 1)))) := by
  rw [Finset.disjoint_left]
  intro j h1 h2
  simp only [Finset.mem_Ico] at h1 h2
  omega

/-- C1 as amended: for every sentence, center `i`, and window parameter
`ws`, the context window contains exactly the tokens at positions
`max(0, i - ws) .. i - 1` and `i + 1 .. min(len, i + ws) - 1` — up to `ws`
tokens before but only up to `ws - 1` tokens after the center (the slice
`sentence[i + 1 : i + ws]` stops one short), clipped at the sentence
boundary and excluding the center; equivalently, the sum over all positions
of the window length equals the number of ordered position pairs `(i, j)`,
`j ≠ i`, with `-ws ≤ j - i ≤ ws - 1`. -/
theorem C1_window_asymmetric (s : List String) (ws : Nat) :
    (∀ i, window s ws i =
      (List.range' (i - ws) (min i s.length - (i - ws))).map (fun j => s.getD j "") ++
      (List.range' (i + 1) (min (i + ws) s.length - (i + 1))).map (fun j => s.getD j "")) ∧
    ∑ i in Finset.range s.length, (window s ws i).length =
      ((Finset.range s.length ×ˢ Finset.range s.length).filter
        (fun x => x.2 ≠ x.1 ∧ x.1 ≤ x.2 + ws ∧ x.2 < x.1 + ws)).card := by
  refine ⟨window_eq_map_idx s ws, ?_⟩
  rw [Finset.card_filter, Finset.sum_product]
  apply Finset.sum_congr rfl
  intro i _
  rw [window_eq_map_idx s ws i]
  simp only [List.length_append, List.length_map, List.length_range']
  rw [← Finset.card_filter, window_filter_eq_union s.length ws i,
    Finset.card_union_of_disjoint (window_Ico_disjoint s.length ws i),
    Nat.card_Ico, Nat.card_Ico]
  omega

/-- C1 is refuted: on the sentence `["a", "b"]` with radius 1 the claimed
window of position 0 is `["b"]` (one token after the center), but the code's
window (`cooccurrence.py` line 32: `sentence[i + 1 : i + ws]`) is empty. -/
theorem C1_refuted :
    window ["a", "b"] 1 0 = [] ∧ specWindow ["a", "b"] 1 0 = ["b"] ∧
    window ["a", "b"] 1 0 ≠ specWindow ["a", "b"] 1 0 := by
  refine ⟨by decide, by decide, by decide⟩

/-- C2 as amended: the number of increments the co-occurrence table gives a
key `k` equals the sum over sentences and over unordered position pairs
`p < q` of an exact per-event contribution (`eventContrib`): an event at
distance below `ws` is counted twice when its tokens are equal strings and
once when they differ; an event at distance exactly `ws` is counted once
when the later token is lexicographically at most the earlier one and
otherwise dropped; farther events contribute nothing.  All increments go to
the canonical key. -/
theorem C2_event_counting (ws : Nat) (corpus : List (List String)) (k : String × String) :
    tally (corpusKeys ws corpus) k =
      (corpus.map (fun s => ∑ p in Finset.range s.length, ∑ q in Finset.range s.length,
        (if p < q then eventContrib s ws p q k else 0))).sum := by
  unfold corpusKeys
  rw [tally_flatMap]
  congr 1
  apply List.map_congr_left
  intro s _
  rw [sentence_tally]
  rw [double_sum_swap s.length (fun i j => orderedContrib s ws i j k)
    (fun i => by
      unfold orderedContrib
      exact if_neg (by rintro ⟨⟨-, -, h⟩, -, -⟩; exact h rfl))]
  apply Finset.sum_congr rfl
  intro p _
  apply Finset.sum_congr rfl
  intro q _
  by_cases hpq : p < q
  · rw [if_pos hpq, if_pos hpq, ordered_pair_contrib s ws p q k hpq]
  · rw [if_neg hpq, if_neg hpq]

/-- C2 is refuted twice over: in the sentence `["a", "b"]` with radius 1 the
unordered event (positions 0, 1, distance 1 = radius) is dropped entirely
(count 0, the spec-modelled count is 1), and in `["a", "a"]` with radius 2
the single event with equal token strings is counted twice (count 2, the
spec-modelled count is 1). -/
theorem C2_refuted :
    tally (sentenceKeys 1 ["a", "b"]) ("a", "b") = 0 ∧
    specEventCount ["a", "b"] 1 ("a", "b") = 1 ∧
    tally (sentenceKeys 2 ["a", "a"]) ("a", "a") = 2 ∧
    specEventCount ["a", "a"] 2 ("a", "a") = 1 := by
  refine ⟨by decide, by decide, by decide, by decide⟩

end MP1
